import Mathlib

/-!
Shallow embedding of `src/secret_santa.py` (hli/secret-santa).

The Python module parses a configuration file into a registry of
participants, runs a randomized greedy assignment engine with a bounded
retry loop, and reports the result.  Randomness (`random.shuffle`,
`random.choice`, `uuid.uuid4`) is modelled by explicit parameters: the
shuffled processing order is an input list together with a permutation
hypothesis, and each `random.choice` call consumes one natural number
from a choice function, indexing into the canonically sorted list of the
available set (so every element of the set is reachable, and theorems
are proved for all choice functions).
-/

namespace SecretSanta

/-- Constant `MAX_ASSIGNMENT_UUID_LENGTH = 7` from the source. -/
def MAX_ASSIGNMENT_UUID_LENGTH : Nat := 7

/-- Constant `MAX_ASSIGNMENT_ATTEMPTS = 3` from the source. -/
def MAX_ASSIGNMENT_ATTEMPTS : Nat := 3

/-- Value stored under one `person_id` key of `config['participants']`:
the dict `{'name': ..., 'email': ..., 'exclusion_ids': ...}` built by
`parse_config_file`. -/
structure Participant where
  name : String
  email : String
  exclusion_ids : Finset String
deriving DecidableEq

/-- The participant table `config['participants']`: a Python dict from
`person_id` to the participant record, modelled as an insertion-ordered
association list (Python dicts preserve insertion order). -/
abbrev ParticipantData := List (String × Participant)

/-- The parsed configuration returned by `parse_config_file` on success:
the three keys it stores. -/
structure Config where
  administrator_email : String
  administrator_email_password : String
  participants : ParticipantData
deriving DecidableEq

/-- Assignments dict built by `get_assignments`: giver id mapped to
getter id, in insertion order. -/
abbrev Assignments := List (String × String)

/-- Key set of the participant table: `set(participant_data.keys())`. -/
def allIds (pdata : ParticipantData) : Finset String :=
  (pdata.map Prod.fst).toFinset

/-- Model of `random.choice(tuple(available_participants))`: the draw
`r` selects the element at index `r % length` of the listing of the
available set.  Every member of the set is selected by some draw, and
the result is always a member when the set is nonempty. -/
def choose_from (available : List String) (r : Nat) : String :=
  available.getD (r % available.length) ""

/-- Loop body of `get_assignments` (source lines 124-135): walk the
randomized order; for each giver take `available = remaining -
exclusions` (set difference, modelled as a filter on the duplicate-free
pool listing), fail if empty, otherwise pick a receiver, remove it from
the pool and record the pair.  `step` numbers the `random.choice`
calls. -/
def assignGo (choice : Nat → Nat) :
    List (String × Participant) → List String → Assignments → Nat →
      Option Assignments
  | [], _, assignments, _ => some assignments
  | (pid, p) :: rest, remaining, assignments, step =>
    let available := remaining.filter (fun x => x ∉ p.exclusion_ids)
    if available = [] then
      none
    else
      let assignment := choose_from available (choice step)
      assignGo choice rest (remaining.erase assignment)
        (assignments ++ [(pid, assignment)]) (step + 1)

/-- `get_assignments(config)` (source lines 111-135).  The shuffled key
list `random.shuffle` would produce is the parameter `order` (theorems
hypothesize it is a permutation of the table); the pool
`remaining_participants` starts as the full key set, modelled as the
deduplicated key listing. -/
def get_assignments (pdata : ParticipantData)
    (order : List (String × Participant)) (choice : Nat → Nat) :
    Option Assignments :=
  assignGo choice order (pdata.map Prod.fst).dedup [] 0

instance {ε α : Type} [DecidableEq ε] [DecidableEq α] :
    DecidableEq (Except ε α) := fun
  | .ok a, .ok b => decidable_of_iff (a = b) (by simp)
  | .ok _, .error _ => isFalse (by simp)
  | .error _, .ok _ => isFalse (by simp)
  | .error a, .error b => decidable_of_iff (a = b) (by simp)

/-- Ways `parse_config_file` can raise: Python `KeyError` (line 97),
`ValueError` from unpacking a line that does not split into four
fields (line 74), and the five explicit `raise Exception(...)` sites. -/
inductive ParseError where
  | keyError (key : String)
  | valueError
  | badExclusionFormat (assignment_exclusions : String)
  | duplicateParticipant (person_id : String)
  | unknownExclusions
  | missingAdministratorEmail
  | missingAdministratorEmailPassword
  | missingParticipants
deriving DecidableEq

/-- Python `str.strip()`: remove leading and trailing whitespace. -/
def pyStrip (s : String) : String :=
  ⟨((s.toList.dropWhile Char.isWhitespace).reverse.dropWhile
      Char.isWhitespace).reverse⟩

/-- Python `str.split(sep)` for a one-character separator, over the
character list: splitting keeps empty fields, and the empty string
yields one empty field. -/
def splitCharList (sep : Char) : List Char → List (List Char)
  | [] => [[]]
  | c :: cs =>
    match splitCharList sep cs with
    | [] => [[]]
    | g :: gs => if c = sep then [] :: g :: gs else (c :: g) :: gs

/-- Python `str.split(sep)` on strings. -/
def pySplit (sep : Char) (s : String) : List String :=
  (splitCharList sep s.toList).map fun g => ⟨g⟩

/-- Python `s[0]` (only meaningful on a nonempty string). -/
def pyHead (s : String) : Char :=
  s.toList.headD default

/-- Python `s[-1]` (only meaningful on a nonempty string). -/
def pyLast (s : String) : Char :=
  s.toList.getLastD default

/-- Python `s[1:-1]`: drop the first and last character. -/
def pyInner (s : String) : String :=
  ⟨(s.toList.drop 1).dropLast⟩

/-- The `config` dict while `parse_config_file` is filling it: each of
the three keys may or may not be present yet. -/
structure RawConfig where
  administrator_email : Option String
  administrator_email_password : Option String
  participants : Option ParticipantData
deriving DecidableEq

/-- Local state of `parse_config_file`: the `config` dict under
construction and the running `all_exclusion_ids` set. -/
structure ParseState where
  config : RawConfig
  all_exclusion_ids : Finset String
deriving DecidableEq

/-- State at entry of `parse_config_file`: empty dict, empty set. -/
def initParseState : ParseState := ⟨⟨none, none, none⟩, ∅⟩

/-- One iteration of the `for line_number, line in enumerate(cfg_file)`
loop (source lines 65-95).  Line 0 stores the stripped administrator
email; line 1 stores the password verbatim; later blank lines are
skipped; other lines are split on commas into exactly four stripped
fields (a different count raises `ValueError`), the exclusion field is
checked for parentheses, its inner ids are collected (dropping the
empty string that an empty parenthesis pair yields) with the person's
own id added, and the participant is inserted after a duplicate-id
check. -/
def processLine (line_number : Nat) (line : String) (st : ParseState) :
    Except ParseError ParseState :=
  if line_number = 0 then
    .ok { st with config := { st.config with
            administrator_email := some (pyStrip line) } }
  else if line_number = 1 then
    .ok { st with config := { st.config with
            administrator_email_password := some line } }
  else if pyStrip line = "" then
    .ok st
  else
    match (pySplit ',' line).map pyStrip with
    | [person_id, name, email, assignment_exclusions] =>
      if assignment_exclusions = "" ∨ pyHead assignment_exclusions ≠ '(' ∨
          pyLast assignment_exclusions ≠ ')' then
        .error (.badExclusionFormat assignment_exclusions)
      else
        let inner := pyInner assignment_exclusions
        let exclusion_ids :=
          insert person_id
            ((((pySplit ';' inner).map pyStrip).toFinset).erase "")
        let ps := st.config.participants.getD []
        if person_id ∈ ps.map Prod.fst then
          .error (.duplicateParticipant person_id)
        else
          let ps' := ps ++ [(person_id, ⟨name, email, exclusion_ids⟩)]
          .ok ⟨{ st.config with participants := some ps' },
               st.all_exclusion_ids ∪ exclusion_ids⟩
    | _ => .error .valueError

/-- The whole `for` loop of `parse_config_file`, folding `processLine`
over the file's lines with their line numbers. -/
def parse_lines : Nat → ParseState → List String → Except ParseError ParseState
  | _, st, [] => .ok st
  | line_number, st, line :: rest =>
    match processLine line_number line st with
    | .error e => .error e
    | .ok st' => parse_lines (line_number + 1) st' rest

/-- Code after the loop of `parse_config_file` (source lines 97-109):
read `config[PARTICIPANTS_KEY]` (a `KeyError` when the key was never
created), reject unknown exclusion ids, then run the three
missing-key checks in order. -/
def finishParse (st : ParseState) : Except ParseError Config :=
  match st.config.participants with
  | none => .error (.keyError "participants")
  | some ps =>
    let all_participants := (ps.map Prod.fst).toFinset
    if st.all_exclusion_ids \ all_participants ≠ ∅ then
      .error .unknownExclusions
    else
      match st.config.administrator_email with
      | none => .error .missingAdministratorEmail
      | some administrator_email =>
        match st.config.administrator_email_password with
        | none => .error .missingAdministratorEmailPassword
        | some administrator_email_password =>
          match st.config.participants with
          | none => .error .missingParticipants
          | some _ => .ok ⟨administrator_email, administrator_email_password, ps⟩

/-- `parse_config_file` (source lines 60-109) over the file's lines,
each line given as Python's file iteration yields it (trailing newline
included when present). -/
def parse_config_file (lines : List String) : Except ParseError Config :=
  match parse_lines 0 initParseState lines with
  | .error e => .error e
  | .ok st => finishParse st

/-- Python truthiness test `not assignments` used by the retry loop
(line 221) and the failure check (line 225): `None` and the empty dict
are falsy. -/
def falsy : Option Assignments → Bool
  | none => true
  | some a => a.isEmpty

/-- Per-attempt randomness: attempt `k` of the retry loop runs
`get_assignments` with the shuffle and choice draws `draws k`. -/
def attempt_result (pdata : ParticipantData)
    (draws : Nat → List (String × Participant) × (Nat → Nat)) (k : Nat) :
    Option Assignments :=
  get_assignments pdata (draws k).1 (draws k).2

/-- The `while attempts <= MAX_ASSIGNMENT_ATTEMPTS and not assignments`
loop (source lines 219-223), with fuel standing in for the `while`
(the loop body increments `attempts`, so `MAX_ASSIGNMENT_ATTEMPTS + 2`
units of fuel are never exhausted; `retryGo_fuel_stable` below shows
the result is fuel-independent from there on). -/
def retryGo (pdata : ParticipantData)
    (draws : Nat → List (String × Participant) × (Nat → Nat)) :
    Nat → Nat → Option Assignments → Nat × Option Assignments
  | 0, attempts, assignments => (attempts, assignments)
  | fuel + 1, attempts, assignments =>
    if attempts ≤ MAX_ASSIGNMENT_ATTEMPTS ∧ falsy assignments then
      retryGo pdata draws fuel (attempts + 1) (attempt_result pdata draws attempts)
    else
      (attempts, assignments)

/-- The retry loop run from `attempts = 0`, `assignments = None`
(source lines 219-223), returning the final values of `attempts` and
`assignments`. -/
def retry_loop (pdata : ParticipantData)
    (draws : Nat → List (String × Participant) × (Nat → Nat)) :
    Nat × Option Assignments :=
  retryGo pdata draws (MAX_ASSIGNMENT_ATTEMPTS + 2) 0 none

/-- Retry loop plus the `if not assignments: raise` check (source lines
219-226): either the final assignments with the attempt count, or the
infeasibility signal carrying the attempt count. -/
def run_assignment (pdata : ParticipantData)
    (draws : Nat → List (String × Participant) × (Nat → Nat)) :
    Except Nat (Nat × Assignments) :=
  let r := retry_loop pdata draws
  match r.2 with
  | none => .error r.1
  | some a => if a.isEmpty then .error r.1 else .ok (r.1, a)

/-- State-passing form of the `get_assignments` loop: the whole
`config` is threaded through every iteration as mutable state, so that
absence of mutation is a theorem rather than a convention.  Each
iteration performs exactly the reads and local updates of source lines
124-133. -/
def assignGoState (choice : Nat → Nat) :
    List (String × Participant) → List String → Assignments → Nat →
      Config → Option Assignments × Config
  | [], _, assignments, _, config => (some assignments, config)
  | (pid, p) :: rest, remaining, assignments, step, config =>
    let available := remaining.filter (fun x => x ∉ p.exclusion_ids)
    if available = [] then
      (none, config)
    else
      let assignment := choose_from available (choice step)
      assignGoState choice rest (remaining.erase assignment)
        (assignments ++ [(pid, assignment)]) (step + 1) config

/-- `get_assignments(config)` in state-passing form: reads
`config['participants']`, builds the pool and runs the loop, returning
the result together with the post-state of `config`. -/
def get_assignments_state (order : List (String × Participant))
    (choice : Nat → Nat) (config : Config) : Option Assignments × Config :=
  let participant_data := config.participants
  assignGoState choice order (participant_data.map Prod.fst).dedup [] 0 config

/-- `str(uuid.uuid4().hex[:MAX_ASSIGNMENT_UUID_LENGTH])` (source line
229): the first `MAX_ASSIGNMENT_UUID_LENGTH` characters of the hex form
of the generated UUID, which is the parameter here. -/
def assignment_uuid (uuid_hex : String) : String :=
  ⟨uuid_hex.toList.take MAX_ASSIGNMENT_UUID_LENGTH⟩

/-- Characters that `uuid.uuid4().hex` can contain: lowercase
hexadecimal digits. -/
def isLowerHexDigit (c : Char) : Bool :=
  (('0' ≤ c) && (c ≤ '9')) || (('a' ≤ c) && (c ≤ 'f'))

/-- Single attempt of the assignment engine exactly as §4.1 of the spec
words it: a pool of remaining receiver ids is maintained, initialized
to the full participant set; for each giver in the randomized order,
`available` is `remaining` minus the giver's exclusions; if `available`
is empty the attempt fails immediately with no result; otherwise one
receiver is selected from `available` (the draw choosing among its
members), giver→receiver is recorded and the receiver leaves the pool;
once every giver is processed the attempt yields the completed
mapping. -/
def specAttemptGo (choice : Nat → Nat) (step : Nat) :
    List (String × Participant) → List String → Option Assignments
  | [], _ => some []
  | (giver, p) :: laterGivers, remaining =>
    let available := remaining.filter (fun x => x ∉ p.exclusion_ids)
    if available ≠ [] then
      let receiver := choose_from available (choice step)
      match specAttemptGo choice (step + 1) laterGivers (remaining.erase receiver) with
      | none => none
      | some m => some ((giver, receiver) :: m)
    else
      none

/-- Whole single attempt per the spec: run over the randomized order
with the pool initialized to the full participant set. -/
def spec_single_attempt (choice : Nat → Nat)
    (order : List (String × Participant)) (fullSet : List String) :
    Option Assignments :=
  specAttemptGo choice 0 order fullSet

/-! ## Lemmas about the single-attempt engine -/

theorem choose_from_mem {available : List String} (h : available ≠ [])
    (r : Nat) : choose_from available r ∈ available := by
  have hlen : 0 < available.length := List.length_pos.mpr h
  have hlt : r % available.length < available.length := Nat.mod_lt _ hlen
  rw [choose_from, List.getD_eq_getElem?_getD, List.getElem?_eq_getElem hlt]
  exact List.getElem_mem hlt

/-- Relation between a processed giver entry and the recorded pair:
same id, receiver drawn from the pool, receiver not excluded. -/
def PairOk (remaining : List String) (op : String × Participant)
    (ar : String × String) : Prop :=
  ar.1 = op.1 ∧ ar.2 ∈ remaining ∧ ar.2 ∉ op.2.exclusion_ids

/-- A member of the right list of a `Forall₂` has a related member on
the left. -/
theorem forall2_exists_left {α β : Type} {P : α → β → Prop}
    {l₁ : List α} {l₂ : List β} (h : List.Forall₂ P l₁ l₂) :
    ∀ b ∈ l₂, ∃ a ∈ l₁, P a b := by
  induction h with
  | nil => intro b hb; cases hb
  | cons hab _ ih =>
    intro b hb
    rcases List.mem_cons.mp hb with hb | hb
    · exact ⟨_, List.mem_cons_self _ _, hb ▸ hab⟩
    · obtain ⟨a, ha, hp⟩ := ih b hb
      exact ⟨a, List.mem_cons_of_mem _ ha, hp⟩

theorem assignGo_invariant (choice : Nat → Nat) :
    ∀ (order : List (String × Participant)) (remaining : List String)
      (acc : Assignments) (step : Nat) (a : Assignments),
      remaining.Nodup →
      assignGo choice order remaining acc step = some a →
      ∃ extra, a = acc ++ extra ∧
        List.Forall₂ (PairOk remaining) order extra ∧
        (extra.map Prod.snd).Nodup := by
  intro order
  induction order with
  | nil =>
    intro remaining acc step a _ h
    refine ⟨[], ?_, List.Forall₂.nil, List.nodup_nil⟩
    simpa [assignGo] using h.symm
  | cons hd tl ih =>
    rintro remaining acc step a hnd h
    obtain ⟨pid, p⟩ := hd
    simp only [assignGo] at h
    by_cases hav : remaining.filter (fun x => x ∉ p.exclusion_ids) = []
    · rw [if_pos hav] at h; cases h
    · rw [if_neg hav] at h
      set r0 := choose_from (remaining.filter (fun x => x ∉ p.exclusion_ids))
        (choice step) with hr0
      have hr0mem : r0 ∈ remaining.filter (fun x => x ∉ p.exclusion_ids) :=
        choose_from_mem hav _
      have hr0rem : r0 ∈ remaining := (List.mem_filter.mp hr0mem).1
      have hr0ex : r0 ∉ p.exclusion_ids := by
        have := (List.mem_filter.mp hr0mem).2
        simpa using this
      obtain ⟨extra, hae, hfa, hnodup⟩ :=
        ih (remaining.erase r0) (acc ++ [(pid, r0)]) (step + 1) a
          (hnd.erase r0) h
      refine ⟨(pid, r0) :: extra, by simpa using hae, ?_, ?_⟩
      · exact List.Forall₂.cons ⟨rfl, hr0rem, hr0ex⟩
          (hfa.imp fun op ar hok =>
            ⟨hok.1, List.erase_subset r0 remaining hok.2.1, hok.2.2⟩)
      · rw [List.map_cons, List.nodup_cons]
        refine ⟨?_, hnodup⟩
        intro hmem
        obtain ⟨ar, harmem, har⟩ := List.mem_map.mp hmem
        obtain ⟨op, -, hok⟩ := forall2_exists_left hfa ar harmem
        have hin : ar.2 ∈ remaining.erase r0 := hok.2.1
        rw [har] at hin
        exact hnd.not_mem_erase hin

/-- Pairs produced by `Forall₂` keep the left list's keys. -/
theorem forall2_map_fst {remaining : List String}
    {order : List (String × Participant)} {extra : Assignments}
    (h : List.Forall₂ (PairOk remaining) order extra) :
    extra.map Prod.fst = order.map Prod.fst := by
  induction h with
  | nil => rfl
  | cons hab _ ih => simp [ih, hab.1]

theorem get_assignments_package
    (pdata : ParticipantData) (order : List (String × Participant))
    (choice : Nat → Nat) (a : Assignments)
    (hnodup : (pdata.map Prod.fst).Nodup)
    (hperm : order.Perm pdata)
    (h : get_assignments pdata order choice = some a) :
    List.Forall₂ (PairOk ((pdata.map Prod.fst).dedup)) order a ∧
    (a.map Prod.fst).Nodup ∧ (a.map Prod.snd).Nodup ∧
    (a.map Prod.fst).toFinset = allIds pdata ∧
    (a.map Prod.snd).toFinset = allIds pdata := by
  obtain ⟨extra, hae, hfa, hnd2⟩ :=
    assignGo_invariant choice order ((pdata.map Prod.fst).dedup) [] 0 a
      (List.nodup_dedup _) h
  rw [List.nil_append] at hae
  subst hae
  have hfst : a.map Prod.fst = order.map Prod.fst := forall2_map_fst hfa
  have hpermfst : (order.map Prod.fst).Perm (pdata.map Prod.fst) :=
    hperm.map _
  have hfstnodup : (a.map Prod.fst).Nodup := by
    rw [hfst]; exact hpermfst.nodup_iff.mpr hnodup
  have hfstset : (a.map Prod.fst).toFinset = allIds pdata := by
    rw [hfst, allIds]; exact List.toFinset_eq_of_perm _ _ hpermfst
  have hlen : a.length = pdata.length := by
    have h1 : order.length = a.length := hfa.length_eq
    have h2 : order.length = pdata.length := hperm.length_eq
    omega
  have hsndsub : ∀ x ∈ (a.map Prod.snd).toFinset, x ∈ allIds pdata := by
    intro x hx
    rw [List.mem_toFinset, List.mem_map] at hx
    obtain ⟨ar, harmem, har⟩ := hx
    obtain ⟨op, -, hok⟩ := forall2_exists_left hfa ar harmem
    have : ar.2 ∈ (pdata.map Prod.fst).dedup := hok.2.1
    rw [allIds, ← har]
    exact List.mem_toFinset.mpr (List.mem_dedup.mp this)
  have hsndset : (a.map Prod.snd).toFinset = allIds pdata := by
    apply Finset.eq_of_subset_of_card_le hsndsub
    have hc1 : (a.map Prod.snd).toFinset.card = pdata.length := by
      rw [List.toFinset_card_of_nodup hnd2, List.length_map, hlen]
    have hc2 : (allIds pdata).card = pdata.length := by
      rw [allIds, List.toFinset_card_of_nodup hnodup, List.length_map]
    omega
  exact ⟨hfa, hfstnodup, hnd2, hfstset, hsndset⟩

/-- C1: for every registry satisfying the §3 invariants (unique ids),
whenever `get_assignments` returns a non-`None` result, that result is
a bijection on the full participant id set: the givers are
duplicate-free, the receivers are duplicate-free, and each of the two
sets equals the set of all participant ids. -/
theorem get_assignments_bijection
    (pdata : ParticipantData) (order : List (String × Participant))
    (choice : Nat → Nat) (a : Assignments)
    (hnodup : (pdata.map Prod.fst).Nodup)
    (hperm : order.Perm pdata)
    (h : get_assignments pdata order choice = some a) :
    (a.map Prod.fst).Nodup ∧ (a.map Prod.snd).Nodup ∧
    (a.map Prod.fst).toFinset = allIds pdata ∧
    (a.map Prod.snd).toFinset = allIds pdata :=
  (get_assignments_package pdata order choice a hnodup hperm h).2

/-- C1 witness: the two-participant registry with only self-exclusions,
the identity shuffle and the zero draw produce the swap assignment,
which the theorem certifies as a bijection. -/
theorem get_assignments_bijection_witness :
    (([(("a" : String), ("b" : String)), ("b", "a")].map Prod.fst).Nodup ∧
     ([(("a" : String), ("b" : String)), ("b", "a")].map Prod.snd).Nodup ∧
     ([(("a" : String), ("b" : String)), ("b", "a")].map Prod.fst).toFinset =
       allIds [("a", ⟨"Alice", "alice@x", {"a"}⟩), ("b", ⟨"Bob", "bob@x", {"b"}⟩)] ∧
     ([(("a" : String), ("b" : String)), ("b", "a")].map Prod.snd).toFinset =
       allIds [("a", ⟨"Alice", "alice@x", {"a"}⟩), ("b", ⟨"Bob", "bob@x", {"b"}⟩)]) :=
  get_assignments_bijection
    [("a", ⟨"Alice", "alice@x", {"a"}⟩), ("b", ⟨"Bob", "bob@x", {"b"}⟩)]
    [("a", ⟨"Alice", "alice@x", {"a"}⟩), ("b", ⟨"Bob", "bob@x", {"b"}⟩)]
    (fun _ => 0) [("a", "b"), ("b", "a")]
    (by decide) (List.Perm.refl _) (by decide)

/-! ## Lemmas about `parse_config_file` -/

/-- Invariant maintained for the participant table during parsing:
unique ids, and every participant's exclusion set contains their own
id (line 84 of the source adds it). -/
def participantsOk (ps : ParticipantData) : Prop :=
  (ps.map Prod.fst).Nodup ∧ ∀ pr ∈ ps, pr.1 ∈ pr.2.exclusion_ids

theorem processLine_participantsOk {n : Nat} {line : String}
    {st st' : ParseState}
    (hok : participantsOk (st.config.participants.getD []))
    (h : processLine n line st = .ok st') :
    participantsOk (st'.config.participants.getD []) := by
  unfold processLine at h
  split_ifs at h with h0 h1 h2
  · cases h; exact hok
  · cases h; exact hok
  · cases h; exact hok
  · split at h
    case _ person_id nm em ex heq =>
      by_cases h3 : ex = "" ∨ pyHead ex ≠ '(' ∨ pyLast ex ≠ ')'
      · rw [if_pos h3] at h; cases h
      · rw [if_neg h3] at h
        simp only [] at h
        by_cases h4 :
            person_id ∈ (st.config.participants.getD []).map Prod.fst
        · rw [if_pos h4] at h; cases h
        · rw [if_neg h4] at h
          cases h
          simp only [participantsOk, Option.getD_some]
          constructor
          · rw [List.map_append, List.map_cons, List.map_nil,
              List.nodup_append]
            refine ⟨hok.1, List.nodup_singleton _, ?_⟩
            intro x hx hx'
            rcases List.mem_singleton.mp hx' with rfl
            exact h4 hx
          · intro pr hpr
            rcases List.mem_append.mp hpr with hpr | hpr
            · exact hok.2 pr hpr
            · rcases List.mem_singleton.mp hpr with rfl
              exact Finset.mem_insert_self _ _
    case _ => cases h

theorem parse_lines_participantsOk :
    ∀ (lines : List String) (n : Nat) (st st' : ParseState),
      participantsOk (st.config.participants.getD []) →
      parse_lines n st lines = .ok st' →
      participantsOk (st'.config.participants.getD []) := by
  intro lines
  induction lines with
  | nil =>
    intro n st st' hok h
    unfold parse_lines at h
    cases h; exact hok
  | cons line rest ih =>
    intro n st st' hok h
    unfold parse_lines at h
    cases hp : processLine n line st with
    | error e => rw [hp] at h; cases h
    | ok st1 =>
      rw [hp] at h
      exact ih _ _ _ (processLine_participantsOk hok hp) h

theorem finishParse_ok {st : ParseState} {c : Config}
    (h : finishParse st = .ok c) :
    st.config.administrator_email = some c.administrator_email ∧
    st.config.administrator_email_password =
      some c.administrator_email_password ∧
    st.config.participants = some c.participants := by
  unfold finishParse at h
  split at h
  next hps => cases h
  next ps hps =>
    simp only [] at h
    split_ifs at h with hun
    split at h
    next hae => cases h
    next administrator_email hae =>
      split at h
      next hpw => cases h
      next administrator_email_password hpw =>
        cases h
        exact ⟨hae, hpw, hps⟩

theorem parse_config_ok_properties {lines : List String} {c : Config}
    (h : parse_config_file lines = .ok c) :
    (c.participants.map Prod.fst).Nodup ∧
    ∀ pr ∈ c.participants, pr.1 ∈ pr.2.exclusion_ids := by
  unfold parse_config_file at h
  cases hpl : parse_lines 0 initParseState lines with
  | error e => rw [hpl] at h; cases h
  | ok st =>
    rw [hpl] at h
    have hok := parse_lines_participantsOk lines 0 initParseState st
      (by simp [initParseState, participantsOk]) hpl
    have hfin := finishParse_ok h
    rw [hfin.2.2] at hok
    simpa [participantsOk] using hok

/-- In a table with unique ids, an id determines its record. -/
theorem nodup_keys_eq :
    ∀ (ps : ParticipantData), (ps.map Prod.fst).Nodup →
      ∀ (g : String) (p q : Participant),
        (g, p) ∈ ps → (g, q) ∈ ps → p = q := by
  intro ps
  induction ps with
  | nil => intro _ g p q hp _; cases hp
  | cons hd tl ih =>
    intro hnd g p q hp hq
    rw [List.map_cons, List.nodup_cons] at hnd
    rcases List.mem_cons.mp hp with hp | hp <;>
      rcases List.mem_cons.mp hq with hq | hq
    · rw [← hp] at hq; exact (Prod.mk.injEq _ _ _ _ ▸ hq).2.symm
    · exfalso
      apply hnd.1
      rw [← hp]
      exact List.mem_map.mpr ⟨(g, q), hq, rfl⟩
    · exfalso
      apply hnd.1
      rw [← hq]
      exact List.mem_map.mpr ⟨(g, p), hp, rfl⟩
    · exact ih hnd.2 g p q hp hq

/-- C2: for every registry loaded by `parse_config_file`, every
successful `get_assignments` result gives each giver a receiver
outside the giver's exclusion set, and — because the parser adds each
person's own id to their exclusion set — never maps a participant to
themselves. -/
theorem get_assignments_respects_exclusions
    (lines : List String) (c : Config)
    (order : List (String × Participant)) (choice : Nat → Nat)
    (a : Assignments)
    (hc : parse_config_file lines = .ok c)
    (hperm : order.Perm c.participants)
    (h : get_assignments c.participants order choice = some a) :
    (∀ g r, (g, r) ∈ a → ∀ p, (g, p) ∈ c.participants →
      r ∉ p.exclusion_ids) ∧
    (∀ g r, (g, r) ∈ a → r ≠ g) := by
  obtain ⟨hnodup, hself⟩ := parse_config_ok_properties hc
  obtain ⟨hfa, -⟩ :=
    get_assignments_package c.participants order choice a hnodup hperm h
  constructor
  · intro g r hmem p hp
    obtain ⟨op, hopmem, hok⟩ := forall2_exists_left hfa (g, r) hmem
    have hop2 : op ∈ c.participants := hperm.subset hopmem
    have hfst : op.1 = g := hok.1.symm
    have hpq : op.2 = p := by
      apply nodup_keys_eq c.participants hnodup g
      · rw [← hfst]; exact hop2
      · exact hp
    rw [← hpq]
    exact hok.2.2
  · intro g r hmem heq
    obtain ⟨op, hopmem, hok⟩ := forall2_exists_left hfa (g, r) hmem
    have hop2 : op ∈ c.participants := hperm.subset hopmem
    have hg : g ∈ op.2.exclusion_ids := by
      have h2 := hself op hop2
      rw [← hok.1] at h2
      exact h2
    rw [heq] at hok
    exact hok.2.2 hg

/-- C2 witness: a three-participant registry parsed from a concrete
config (participant `a` additionally excludes `b`); the zero draws
produce the cycle a→c→b→a, which the theorem certifies. -/
theorem get_assignments_respects_exclusions_witness :
    ((∀ g r, (g, r) ∈ [(("a" : String), ("c" : String)), ("b", "a"), ("c", "b")] →
        ∀ p : Participant,
          (g, p) ∈ [("a", (⟨"A", "a@x", {"a", "b"}⟩ : Participant)),
            ("b", ⟨"B", "b@x", {"b"}⟩), ("c", ⟨"C", "c@x", {"c"}⟩)] →
          r ∉ p.exclusion_ids) ∧
     (∀ g r, (g, r) ∈ [(("a" : String), ("c" : String)), ("b", "a"), ("c", "b")] →
        r ≠ g)) :=
  get_assignments_respects_exclusions
    ["adm@x\n", "pw\n", "a, A, a@x, (b)\n", "b, B, b@x, ()\n", "c, C, c@x, ()\n"]
    ⟨"adm@x", "pw\n",
      [("a", ⟨"A", "a@x", {"a", "b"}⟩), ("b", ⟨"B", "b@x", {"b"}⟩),
        ("c", ⟨"C", "c@x", {"c"}⟩)]⟩
    [("a", ⟨"A", "a@x", {"a", "b"}⟩), ("b", ⟨"B", "b@x", {"b"}⟩),
      ("c", ⟨"C", "c@x", {"c"}⟩)]
    (fun _ => 0) [("a", "c"), ("b", "a"), ("c", "b")]
    (by decide) (List.Perm.refl _) (by decide)

/-! ## Lemmas about the retry loop -/

theorem retryGo_step (pdata : ParticipantData)
    (draws : Nat → List (String × Participant) × (Nat → Nat))
    (fuel attempts : Nat) (assignments : Option Assignments) :
    retryGo pdata draws (fuel + 1) attempts assignments =
      if attempts ≤ MAX_ASSIGNMENT_ATTEMPTS ∧ falsy assignments = true then
        retryGo pdata draws fuel (attempts + 1)
          (attempt_result pdata draws attempts)
      else (attempts, assignments) := rfl

theorem retryGo_fuel_stable (pdata : ParticipantData)
    (draws : Nat → List (String × Participant) × (Nat → Nat)) :
    ∀ (fuel₁ fuel₂ attempts : Nat) (assignments : Option Assignments),
      MAX_ASSIGNMENT_ATTEMPTS + 2 ≤ fuel₁ + attempts →
      MAX_ASSIGNMENT_ATTEMPTS + 2 ≤ fuel₂ + attempts →
      retryGo pdata draws fuel₁ attempts assignments =
        retryGo pdata draws fuel₂ attempts assignments := by
  intro fuel₁
  induction fuel₁ with
  | zero =>
    intro fuel₂ attempts assignments h1 h2
    cases fuel₂ with
    | zero => rfl
    | succ f =>
      rw [retryGo_step, if_neg]
      · rfl
      · intro hcon
        have := hcon.1
        omega
  | succ f ih =>
    intro fuel₂ attempts assignments h1 h2
    cases fuel₂ with
    | zero =>
      rw [retryGo_step, if_neg]
      · rfl
      · intro hcon
        have := hcon.1
        omega
    | succ f2 =>
      rw [retryGo_step, retryGo_step]
      by_cases hg : attempts ≤ MAX_ASSIGNMENT_ATTEMPTS ∧
          falsy assignments = true
      · rw [if_pos hg, if_pos hg]
        exact ih f2 (attempts + 1) _ (by omega) (by omega)
      · rw [if_neg hg, if_neg hg]

/-- C3: the retry loop performs at least one and at most
`MAX_ASSIGNMENT_ATTEMPTS + 1 = 4` invocations of the single-attempt
engine; its final `assignments` is the result of the last attempt made,
and every attempt before the last one failed (so the loop stops as soon
as an attempt succeeds, and stops after the last failed attempt). -/
theorem retry_loop_spec (pdata : ParticipantData)
    (draws : Nat → List (String × Participant) × (Nat → Nat)) :
    1 ≤ (retry_loop pdata draws).1 ∧
    (retry_loop pdata draws).1 ≤ MAX_ASSIGNMENT_ATTEMPTS + 1 ∧
    (retry_loop pdata draws).2 =
      attempt_result pdata draws ((retry_loop pdata draws).1 - 1) ∧
    (∀ k, k + 1 < (retry_loop pdata draws).1 →
      falsy (attempt_result pdata draws k) = true) := by
  have e0 : retry_loop pdata draws =
      retryGo pdata draws 4 1 (attempt_result pdata draws 0) := by
    show retryGo pdata draws (4 + 1) 0 none = _
    rw [retryGo_step, if_pos ⟨Nat.zero_le _, rfl⟩]
  cases hF0 : falsy (attempt_result pdata draws 0) with
  | false =>
    have e1 : retry_loop pdata draws = (1, attempt_result pdata draws 0) := by
      rw [e0]
      show retryGo pdata draws (3 + 1) 1 (attempt_result pdata draws 0) = _
      rw [retryGo_step, if_neg]
      intro hcon
      rw [hF0] at hcon
      cases hcon.2
    rw [e1]
    dsimp only
    refine ⟨by omega, by decide, rfl, ?_⟩
    intro k hk
    omega
  | true =>
    have e1 : retry_loop pdata draws =
        retryGo pdata draws 3 2 (attempt_result pdata draws 1) := by
      rw [e0]
      show retryGo pdata draws (3 + 1) 1 (attempt_result pdata draws 0) = _
      rw [retryGo_step, if_pos ⟨by decide, hF0⟩]
    cases hF1 : falsy (attempt_result pdata draws 1) with
    | false =>
      have e2 : retry_loop pdata draws =
          (2, attempt_result pdata draws 1) := by
        rw [e1]
        show retryGo pdata draws (2 + 1) 2 (attempt_result pdata draws 1) = _
        rw [retryGo_step, if_neg]
        intro hcon
        rw [hF1] at hcon
        cases hcon.2
      rw [e2]
      dsimp only
      refine ⟨by omega, by decide, rfl, ?_⟩
      intro k hk
      have : k = 0 := by omega
      rw [this]
      exact hF0
    | true =>
      have e2 : retry_loop pdata draws =
          retryGo pdata draws 2 3 (attempt_result pdata draws 2) := by
        rw [e1]
        show retryGo pdata draws (2 + 1) 2 (attempt_result pdata draws 1) = _
        rw [retryGo_step, if_pos ⟨by decide, hF1⟩]
      cases hF2 : falsy (attempt_result pdata draws 2) with
      | false =>
        have e3 : retry_loop pdata draws =
            (3, attempt_result pdata draws 2) := by
          rw [e2]
          show retryGo pdata draws (1 + 1) 3 (attempt_result pdata draws 2) = _
          rw [retryGo_step, if_neg]
          intro hcon
          rw [hF2] at hcon
          cases hcon.2
        rw [e3]
        dsimp only
        refine ⟨by omega, by decide, rfl, ?_⟩
        intro k hk
        have : k = 0 ∨ k = 1 := by omega
        rcases this with rfl | rfl
        · exact hF0
        · exact hF1
      | true =>
        have e3 : retry_loop pdata draws =
            retryGo pdata draws 1 4 (attempt_result pdata draws 3) := by
          rw [e2]
          show retryGo pdata draws (1 + 1) 3 (attempt_result pdata draws 2) = _
          rw [retryGo_step, if_pos ⟨by decide, hF2⟩]
        have e4 : retry_loop pdata draws =
            (4, attempt_result pdata draws 3) := by
          rw [e3]
          show retryGo pdata draws (0 + 1) 4 (attempt_result pdata draws 3) = _
          rw [retryGo_step, if_neg]
          intro hcon
          exact absurd hcon.1 (by decide)
        rw [e4]
        dsimp only
        refine ⟨by omega, by decide, rfl, ?_⟩
        intro k hk
        have : k = 0 ∨ k = 1 ∨ k = 2 := by omega
        rcases this with rfl | rfl | rfl
        · exact hF0
        · exact hF1
        · exact hF2

theorem run_assignment_all_fail {pdata : ParticipantData}
    {draws : Nat → List (String × Participant) × (Nat → Nat)}
    (hfail : ∀ k, attempt_result pdata draws k = none) :
    retry_loop pdata draws = (MAX_ASSIGNMENT_ATTEMPTS + 1, none) ∧
    run_assignment pdata draws = .error (MAX_ASSIGNMENT_ATTEMPTS + 1) := by
  have hloop : retry_loop pdata draws =
      (MAX_ASSIGNMENT_ATTEMPTS + 1, none) := by
    show retryGo pdata draws (4 + 1) 0 none = (4, none)
    rw [retryGo_step, if_pos ⟨Nat.zero_le _, rfl⟩, hfail 0]
    show retryGo pdata draws (3 + 1) 1 none = _
    rw [retryGo_step, if_pos ⟨by decide, rfl⟩, hfail 1]
    show retryGo pdata draws (2 + 1) 2 none = _
    rw [retryGo_step, if_pos ⟨by decide, rfl⟩, hfail 2]
    show retryGo pdata draws (1 + 1) 3 none = _
    rw [retryGo_step, if_pos ⟨by decide, rfl⟩, hfail 3]
    show retryGo pdata draws (0 + 1) 4 none = _
    rw [retryGo_step, if_neg]
    intro hcon
    exact absurd hcon.1 (by decide)
  refine ⟨hloop, ?_⟩
  simp [run_assignment, hloop]

/-- Every element of the pool keeps membership in `S`, and some
participant excludes all of `S`: the attempt returns no result. -/
theorem assignGo_none_of_subset (choice : Nat → Nat) (S : Finset String) :
    ∀ (order : List (String × Participant)) (remaining : List String)
      (acc : Assignments) (step : Nat),
      (∀ x ∈ remaining, x ∈ S) →
      (∃ pr ∈ order, S ⊆ pr.2.exclusion_ids) →
      assignGo choice order remaining acc step = none := by
  intro order
  induction order with
  | nil =>
    intro remaining acc step _ hbad
    obtain ⟨pr, hpr, -⟩ := hbad
    cases hpr
  | cons hd tl ih =>
    intro remaining acc step hrem hbad
    obtain ⟨pid, p⟩ := hd
    simp only [assignGo]
    by_cases hfull : S ⊆ p.exclusion_ids
    · have hav : remaining.filter (fun x => x ∉ p.exclusion_ids) = [] := by
        rw [List.filter_eq_nil_iff]
        intro a ha
        simp only [decide_not, Bool.not_eq_true', decide_eq_false_iff_not,
          not_not]
        exact hfull (hrem a ha)
      rw [if_pos hav]
    · obtain ⟨pr, hpr, hsub⟩ := hbad
      have hprtl : pr ∈ tl := by
        rcases List.mem_cons.mp hpr with h | h
        · exfalso
          apply hfull
          rw [h] at hsub
          exact hsub
        · exact h
      by_cases hav : remaining.filter (fun x => x ∉ p.exclusion_ids) = []
      · rw [if_pos hav]
      · rw [if_neg hav]
        apply ih
        · intro x hx
          exact hrem x (List.erase_subset _ _ hx)
        · exact ⟨pr, hprtl, hsub⟩

/-- C5: when some participant's exclusion set equals the full id set,
every attempt of `get_assignments` returns `None` whatever the random
draws are, and the overall run signals infeasibility carrying exactly
`MAX_ASSIGNMENT_ATTEMPTS + 1 = 4` attempts — never fewer. -/
theorem infeasible_full_exclusion
    (pdata : ParticipantData)
    (draws : Nat → List (String × Participant) × (Nat → Nat))
    (hperm : ∀ k, ((draws k).1).Perm pdata)
    (hbad : ∃ pr ∈ pdata, pr.2.exclusion_ids = allIds pdata) :
    (∀ k, attempt_result pdata draws k = none) ∧
    run_assignment pdata draws = .error (MAX_ASSIGNMENT_ATTEMPTS + 1) := by
  have hfail : ∀ k, attempt_result pdata draws k = none := by
    intro k
    obtain ⟨pr, hpr, hex⟩ := hbad
    unfold attempt_result get_assignments
    apply assignGo_none_of_subset _ (allIds pdata)
    · intro x hx
      exact List.mem_toFinset.mpr (List.mem_dedup.mp hx)
    · refine ⟨pr, ((hperm k).mem_iff).mpr hpr, ?_⟩
      rw [hex]
  exact ⟨hfail, (run_assignment_all_fail hfail).2⟩

/-- C5 witness: participant `a` excludes the whole id set `{a, b}`;
with any constant draws, all four attempts fail and the run reports
infeasibility at four attempts. -/
theorem infeasible_full_exclusion_witness :
    (∀ k, attempt_result
        [("a", ⟨"A", "a@x", {"a", "b"}⟩), ("b", ⟨"B", "b@x", {"b"}⟩)]
        (fun _ => ([("a", ⟨"A", "a@x", {"a", "b"}⟩),
          ("b", ⟨"B", "b@x", {"b"}⟩)], fun _ => 0)) k = none) ∧
    run_assignment
        [("a", ⟨"A", "a@x", {"a", "b"}⟩), ("b", ⟨"B", "b@x", {"b"}⟩)]
        (fun _ => ([("a", ⟨"A", "a@x", {"a", "b"}⟩),
          ("b", ⟨"B", "b@x", {"b"}⟩)], fun _ => 0)) =
      .error (MAX_ASSIGNMENT_ATTEMPTS + 1) :=
  infeasible_full_exclusion
    [("a", ⟨"A", "a@x", {"a", "b"}⟩), ("b", ⟨"B", "b@x", {"b"}⟩)]
    (fun _ => ([("a", ⟨"A", "a@x", {"a", "b"}⟩),
      ("b", ⟨"B", "b@x", {"b"}⟩)], fun _ => 0))
    (fun _ => List.Perm.refl _)
    ⟨("a", ⟨"A", "a@x", {"a", "b"}⟩), by decide, by decide⟩

/-- C6: a registry with exactly one participant is always infeasible:
the sole giver's exclusion set contains their own id, so every attempt
returns `None` and the run reports infeasibility after exhausting the
attempt budget. -/
theorem single_participant_infeasible
    (pid : String) (p : Participant)
    (draws : Nat → List (String × Participant) × (Nat → Nat))
    (hself : pid ∈ p.exclusion_ids)
    (hperm : ∀ k, ((draws k).1).Perm [(pid, p)]) :
    (∀ k, attempt_result [(pid, p)] draws k = none) ∧
    run_assignment [(pid, p)] draws =
      .error (MAX_ASSIGNMENT_ATTEMPTS + 1) := by
  have hfail : ∀ k, attempt_result [(pid, p)] draws k = none := by
    intro k
    unfold attempt_result get_assignments
    apply assignGo_none_of_subset _ {pid}
    · intro x hx
      simp only [List.map_cons, List.map_nil] at hx
      rw [List.mem_dedup] at hx
      simpa using hx
    · exact ⟨(pid, p), ((hperm k).mem_iff).mpr (by simp),
        Finset.singleton_subset_iff.mpr hself⟩
  exact ⟨hfail, (run_assignment_all_fail hfail).2⟩

/-- C6 witness: the lone participant `z` with the parser-mandated
self-exclusion; all attempts fail and the budget is exhausted. -/
theorem single_participant_infeasible_witness :
    (∀ k, attempt_result [("z", ⟨"Z", "z@x", {"z"}⟩)]
        (fun _ => ([("z", ⟨"Z", "z@x", {"z"}⟩)], fun _ => 0)) k = none) ∧
    run_assignment [("z", ⟨"Z", "z@x", {"z"}⟩)]
        (fun _ => ([("z", ⟨"Z", "z@x", {"z"}⟩)], fun _ => 0)) =
      .error (MAX_ASSIGNMENT_ATTEMPTS + 1) :=
  single_participant_infeasible "z" ⟨"Z", "z@x", {"z"}⟩
    (fun _ => ([("z", ⟨"Z", "z@x", {"z"}⟩)], fun _ => 0))
    (by decide) (fun _ => List.Perm.refl _)

/-! ## Refinement of the spec's description of a single attempt -/

theorem assignGo_eq_specAttemptGo (choice : Nat → Nat) :
    ∀ (order : List (String × Participant)) (remaining : List String)
      (acc : Assignments) (step : Nat),
      assignGo choice order remaining acc step =
        (specAttemptGo choice step order remaining).map (acc ++ ·) := by
  intro order
  induction order with
  | nil => intro remaining acc step; simp [assignGo, specAttemptGo]
  | cons hd tl ih =>
    intro remaining acc step
    obtain ⟨pid, p⟩ := hd
    simp only [assignGo, specAttemptGo]
    by_cases hav : remaining.filter (fun x => x ∉ p.exclusion_ids) = []
    · rw [if_pos hav, if_neg (not_not_intro hav)]
      rfl
    · rw [if_neg hav, if_pos hav, ih]
      cases specAttemptGo choice (step + 1) tl
        (remaining.erase (choose_from
          (remaining.filter (fun x => x ∉ p.exclusion_ids))
          (choice step))) with
      | none => rfl
      | some m => simp

/-- C4: a single attempt of the engine is exactly the greedy procedure
§4.1 of the spec describes: randomized order, a pool initialized to the
full participant set, per giver `available = remaining − exclusions`
with immediate failure on empty and otherwise a drawn receiver that is
recorded and removed from the pool. -/
theorem get_assignments_matches_spec (pdata : ParticipantData)
    (order : List (String × Participant)) (choice : Nat → Nat) :
    get_assignments pdata order choice =
      spec_single_attempt choice order ((pdata.map Prod.fst).dedup) := by
  unfold get_assignments spec_single_attempt
  rw [assignGo_eq_specAttemptGo]
  cases specAttemptGo choice 0 order ((pdata.map Prod.fst).dedup) with
  | none => rfl
  | some m => simp

/-! ## Absence of registry mutation -/

theorem assignGoState_frame (choice : Nat → Nat) :
    ∀ (order : List (String × Participant)) (remaining : List String)
      (acc : Assignments) (step : Nat) (config : Config),
      assignGoState choice order remaining acc step config =
        (assignGo choice order remaining acc step, config) := by
  intro order
  induction order with
  | nil => intro remaining acc step config; rfl
  | cons hd tl ih =>
    intro remaining acc step config
    obtain ⟨pid, p⟩ := hd
    simp only [assignGoState, assignGo]
    by_cases hav : remaining.filter (fun x => x ∉ p.exclusion_ids) = []
    · rw [if_pos hav, if_pos hav]
    · rw [if_neg hav, if_neg hav, ih]

/-- C7: `get_assignments` never mutates the registry it is given: with
the whole config threaded through the loop as state, the post-state
equals the pre-state (so every participant's id, name, contact address
and exclusion set are unchanged), and the computed result is that of
the pure function. -/
theorem get_assignments_no_mutation (order : List (String × Participant))
    (choice : Nat → Nat) (config : Config) :
    (get_assignments_state order choice config).2 = config ∧
    (get_assignments_state order choice config).1 =
      get_assignments config.participants order choice := by
  unfold get_assignments_state get_assignments
  rw [assignGoState_frame]
  exact ⟨rfl, rfl⟩

/-! ## Reachability of the parser's missing-participants check -/

theorem processLine_blank {n : Nat} {line : String} {st : ParseState}
    (hn : 2 ≤ n) (hblank : pyStrip line = "") :
    processLine n line st = .ok st := by
  unfold processLine
  rw [if_neg (by omega), if_neg (by omega), if_pos hblank]

theorem parse_lines_blank :
    ∀ (rest : List String) (n : Nat) (st : ParseState), 2 ≤ n →
      (∀ l ∈ rest, pyStrip l = "") →
      parse_lines n st rest = .ok st := by
  intro rest
  induction rest with
  | nil => intro n st _ _; rfl
  | cons l rest ih =>
    intro n st hn hb
    unfold parse_lines
    rw [processLine_blank hn (hb l (List.mem_cons_self _ _))]
    exact ih (n + 1) st (by omega) fun x hx => hb x (List.mem_cons_of_mem _ hx)

theorem parse_no_participant_lines (l0 l1 : String) (rest : List String)
    (hb : ∀ l ∈ rest, pyStrip l = "") :
    parse_config_file (l0 :: l1 :: rest) =
      .error (.keyError "participants") := by
  unfold parse_config_file
  have h2 : parse_lines 0 initParseState (l0 :: l1 :: rest) =
      parse_lines 2 ⟨⟨some (pyStrip l0), some l1, none⟩, ∅⟩ rest := rfl
  rw [h2, parse_lines_blank rest 2 _ (by omega) hb]
  rfl

theorem processLine_not_missing {n : Nat} {line : String} {st : ParseState} :
    processLine n line st ≠ .error .missingParticipants := by
  intro h
  unfold processLine at h
  split_ifs at h with h0 h1 h2
  split at h
  case _ person_id nm em ex heq =>
    by_cases h3 : ex = "" ∨ pyHead ex ≠ '(' ∨ pyLast ex ≠ ')'
    · rw [if_pos h3] at h
      simp at h
    · rw [if_neg h3] at h
      simp only [] at h
      by_cases h4 :
          person_id ∈ (st.config.participants.getD []).map Prod.fst
      · rw [if_pos h4] at h
        simp at h
      · rw [if_neg h4] at h
        simp at h
  case _ => simp at h

theorem parse_lines_not_missing :
    ∀ (lines : List String) (n : Nat) (st : ParseState),
      parse_lines n st lines ≠ .error .missingParticipants := by
  intro lines
  induction lines with
  | nil => intro n st h; cases h
  | cons line rest ih =>
    intro n st h
    unfold parse_lines at h
    cases hp : processLine n line st with
    | error e =>
      rw [hp] at h
      cases h
      exact processLine_not_missing hp
    | ok st1 =>
      rw [hp] at h
      exact ih _ _ h

theorem finishParse_not_missing (st : ParseState) :
    finishParse st ≠ .error .missingParticipants := by
  intro h
  unfold finishParse at h
  split at h
  · simp at h
  next ps hps =>
    simp only [] at h
    split_ifs at h with hun
    · simp at h
    · split at h
      next hae => simp at h
      next administrator_email hae =>
        split at h
        next hpw => simp at h
        next administrator_email_password hpw => simp at h

theorem parse_config_never_missing (lines : List String) :
    parse_config_file lines ≠ .error .missingParticipants := by
  intro h
  unfold parse_config_file at h
  cases hpl : parse_lines 0 initParseState lines with
  | error e =>
    rw [hpl] at h
    cases h
    exact parse_lines_not_missing lines 0 initParseState hpl
  | ok st =>
    rw [hpl] at h
    exact finishParse_not_missing st h

/-- C8: a config input with the two administrator lines and no
participant lines fails at the read of `config[PARTICIPANTS_KEY]` with
a `KeyError`, before the dedicated 'Missing participants in
configuration file.' check is reached; indeed no input at all can
produce that error, so the check is unreachable. -/
theorem missing_participants_check_unreachable :
    (∀ (l0 l1 : String) (rest : List String),
      (∀ l ∈ rest, pyStrip l = "") →
      parse_config_file (l0 :: l1 :: rest) =
        .error (.keyError "participants")) ∧
    (∀ lines : List String,
      parse_config_file lines ≠ .error .missingParticipants) :=
  ⟨parse_no_participant_lines, parse_config_never_missing⟩

/-- C8 witness: two administrator lines plus one whitespace-only line
trigger the `KeyError`, not the dedicated missing-participants
error. -/
theorem missing_participants_check_unreachable_witness :
    parse_config_file ["adm@x.com\n", "pw\n", " \n"] =
      .error (.keyError "participants") ∧
    parse_config_file ["adm@x.com\n", "pw\n", " \n"] ≠
      .error .missingParticipants :=
  ⟨missing_participants_check_unreachable.1 "adm@x.com\n" "pw\n" [" \n"]
      (by decide),
   missing_participants_check_unreachable.2 _⟩

/-! ## Normalization of the two administrator fields -/

theorem processLine_admin {n : Nat} {line : String} {st st' : ParseState}
    (hn : 2 ≤ n) (h : processLine n line st = .ok st') :
    st'.config.administrator_email = st.config.administrator_email ∧
    st'.config.administrator_email_password =
      st.config.administrator_email_password := by
  unfold processLine at h
  rw [if_neg (by omega), if_neg (by omega)] at h
  split_ifs at h with h2
  · cases h; exact ⟨rfl, rfl⟩
  · split at h
    case _ person_id nm em ex heq =>
      by_cases h3 : ex = "" ∨ pyHead ex ≠ '(' ∨ pyLast ex ≠ ')'
      · rw [if_pos h3] at h; cases h
      · rw [if_neg h3] at h
        simp only [] at h
        by_cases h4 :
            person_id ∈ (st.config.participants.getD []).map Prod.fst
        · rw [if_pos h4] at h; cases h
        · rw [if_neg h4] at h
          cases h
          exact ⟨rfl, rfl⟩
    case _ => cases h

theorem parse_lines_admin :
    ∀ (rest : List String) (n : Nat) (st st' : ParseState), 2 ≤ n →
      parse_lines n st rest = .ok st' →
      st'.config.administrator_email = st.config.administrator_email ∧
      st'.config.administrator_email_password =
        st.config.administrator_email_password := by
  intro rest
  induction rest with
  | nil =>
    intro n st st' _ h
    cases h
    exact ⟨rfl, rfl⟩
  | cons line rest ih =>
    intro n st st' hn h
    unfold parse_lines at h
    cases hp : processLine n line st with
    | error e => rw [hp] at h; cases h
    | ok st1 =>
      rw [hp] at h
      obtain ⟨he1, hp1⟩ := processLine_admin hn hp
      obtain ⟨he2, hp2⟩ := ih (n + 1) st1 st' (by omega) h
      exact ⟨he2.trans he1, hp2.trans hp1⟩

/-- C9: `parse_config_file` strips surrounding whitespace from the
administrator contact address (line 0) but stores the administrator
credential (line 1) verbatim, trailing newline included — the two
fields are not normalized the same way. -/
theorem administrator_fields_asymmetry
    (l0 l1 : String) (rest : List String) (c : Config)
    (h : parse_config_file (l0 :: l1 :: rest) = .ok c) :
    c.administrator_email = pyStrip l0 ∧
    c.administrator_email_password = l1 := by
  unfold parse_config_file at h
  have h2 : parse_lines 0 initParseState (l0 :: l1 :: rest) =
      parse_lines 2 ⟨⟨some (pyStrip l0), some l1, none⟩, ∅⟩ rest := rfl
  rw [h2] at h
  cases hpl : parse_lines 2 ⟨⟨some (pyStrip l0), some l1, none⟩, ∅⟩ rest with
  | error e => rw [hpl] at h; cases h
  | ok st =>
    rw [hpl] at h
    obtain ⟨hae, hpw⟩ :=
      parse_lines_admin rest 2 _ st (by omega) hpl
    obtain ⟨hae2, hpw2, -⟩ := finishParse_ok h
    constructor
    · exact Option.some.inj (hae2.symm.trans hae)
    · exact Option.some.inj (hpw2.symm.trans hpw)

/-- C9 witness: the parsed administrator email loses its surrounding
whitespace while the stored password keeps its trailing newline. -/
theorem administrator_fields_asymmetry_witness :
    (⟨"admin@x.com", "pw\n", [("a", ⟨"A", "a@b", {"a"}⟩)]⟩ :
        Config).administrator_email = pyStrip "  admin@x.com \n" ∧
    (⟨"admin@x.com", "pw\n", [("a", ⟨"A", "a@b", {"a"}⟩)]⟩ :
        Config).administrator_email_password = "pw\n" :=
  administrator_fields_asymmetry "  admin@x.com \n" "pw\n"
    ["a, A, a@b, ()\n"] _ (by decide)

/-! ## Shape of the correlation identifier -/

/-- C10: the correlation identifier is the first
`MAX_ASSIGNMENT_UUID_LENGTH = 7` characters of the UUID's hex form, so
it has at most 7 characters, and when the UUID hex form consists of
lowercase hexadecimal digits (as `uuid.uuid4().hex` always does), every
character of the identifier is a lowercase hexadecimal digit. -/
theorem assignment_uuid_shape (uuid_hex : String)
    (hhex : ∀ ch ∈ uuid_hex.toList, isLowerHexDigit ch = true) :
    (assignment_uuid uuid_hex).length ≤ MAX_ASSIGNMENT_UUID_LENGTH ∧
    ∀ ch ∈ (assignment_uuid uuid_hex).toList,
      isLowerHexDigit ch = true := by
  constructor
  · show (uuid_hex.toList.take MAX_ASSIGNMENT_UUID_LENGTH).length ≤
      MAX_ASSIGNMENT_UUID_LENGTH
    rw [List.length_take]
    exact Nat.min_le_left _ _
  · intro ch hch
    exact hhex ch (List.take_subset _ _ hch)

/-- C10 witness: a concrete 32-character lowercase-hex UUID body yields
a 7-character lowercase-hex identifier. -/
theorem assignment_uuid_shape_witness :
    (assignment_uuid "1f2e3d4c5b6a79880917263545abcdef").length ≤
      MAX_ASSIGNMENT_UUID_LENGTH ∧
    ∀ ch ∈ (assignment_uuid "1f2e3d4c5b6a79880917263545abcdef").toList,
      isLowerHexDigit ch = true :=
  assignment_uuid_shape "1f2e3d4c5b6a79880917263545abcdef" (by decide)

end SecretSanta
